import Mathlib

/-!
Verification of the bundle-source unpack cache (`internal/rukpak/source`):
a shallow embedding of the tar.gz extractor (`TarGZ.Unpack`), the OCI layer
extractor (`unpackImage`), the cache-layout functions (`bundlePath`,
`unpackPath`) and the generation garbage collector (`deleteOtherImages`),
together with theorems about the properties claimed of them.

Go path strings are modelled at the level of slash-separated segments of
characters, with the lexical `Clean` semantics of `path`/`filepath.Join`.
The filesystem is modelled as an association list from cleaned segment
paths to nodes; OS-level failures of individual filesystem calls are
injected through explicit boolean/error parameters so that every error
path of the source is reachable in the model.
-/

namespace OpCtl

/-- A path is a list of segments; each segment is a list of characters. -/
abbrev Segs := List (List Char)

/-- Splits a character list at every slash; helper keeping the head group. -/
def consHead (c : Char) : List (List Char) → List (List Char)
  | [] => [[c]]
  | s :: ss => (c :: s) :: ss

/-- Splits a character list at every `'/'`; never returns the empty list. -/
def splitOnSlash : List Char → List (List Char)
  | [] => [[]]
  | c :: rest =>
    if c = '/' then [] :: splitOnSlash rest
    else consHead c (splitOnSlash rest)

/-- The single-dot segment. -/
def dotSeg : List Char := ['.']

/-- The double-dot (parent) segment. -/
def dotdotSeg : List Char := ['.', '.']

/-- Segments that survive path cleaning: nonempty and not `"."`. -/
def keepSeg (seg : List Char) : Bool := decide (seg ≠ [] ∧ seg ≠ dotSeg)

/-- The slash-split segments of a path string, empty and `"."` segments dropped. -/
def splitPath (s : String) : Segs := (splitOnSlash s.data).filter keepSeg

/-- Whether a path string is absolute (starts with a slash). -/
def isAbs (s : String) : Bool := decide (s.data.head? = some '/')

/-- One step of Go `path.Clean`: processes a segment against the stack of
    already-cleaned segments (stored in reverse). -/
def cleanStack (abs : Bool) (stk : Segs) (seg : List Char) : Segs :=
  if seg = dotdotSeg then
    match stk with
    | [] => if abs then [] else [dotdotSeg]
    | top :: rest => if top = dotdotSeg then dotdotSeg :: top :: rest else rest
  else seg :: stk

/-- Go `path.Clean` on already-split segments. -/
def cleanSegments (abs : Bool) (segs : Segs) : Segs :=
  (segs.foldl (cleanStack abs) []).reverse

/-- Joins segments back with slashes. -/
def joinSlash : List (List Char) → List Char
  | [] => []
  | [s] => s
  | s :: rest => s ++ '/' :: joinSlash rest

/-- Renders cleaned segments as a Go path string (`"."` for an empty relative path). -/
def renderPath (abs : Bool) (segs : Segs) : String :=
  if abs then ⟨'/' :: joinSlash segs⟩
  else if segs = [] then "." else ⟨joinSlash segs⟩

/-- The cleaned segments of a path string. -/
def segsOf (s : String) : Segs := cleanSegments (isAbs s) (splitPath s)

/-- Go `path.Clean` on strings. -/
def goClean (s : String) : String := renderPath (isAbs s) (segsOf s)

/-- Go `path.Join`/`filepath.Join` of two elements: empty elements are
    skipped and the result is cleaned. -/
def goJoin (a b : String) : String :=
  if a = "" then (if b = "" then "" else goClean b)
  else renderPath (isAbs a) (cleanSegments (isAbs a) (splitPath a ++ splitPath b))

/-- Go `filepath.Dir` restricted to already-cleaned inputs (the only inputs
    the source applies it to): drop the final segment. -/
def goDir (p : String) : String := renderPath (isAbs p) ((segsOf p).dropLast)

/-! ## Filesystem model -/

/-- A filesystem node: a directory or a regular file, with permission mode
    and a read-only marker. -/
inductive FNode
  | dir (mode : Nat) (ro : Bool)
  | file (mode : Nat) (content : String) (ro : Bool)
deriving DecidableEq, Repr

/-- A filesystem: an association list from cleaned segment paths to nodes. -/
abbrev Fs := List (Segs × FNode)

/-- Looks up the node stored at a path. -/
def fsFind : Fs → Segs → Option FNode
  | [], _ => none
  | e :: rest, p => if e.1 = p then some e.2 else fsFind rest p

/-- Stores a node at a path, replacing any previous entry for that path. -/
def fsSet (fs : Fs) (p : Segs) (n : FNode) : Fs :=
  (p, n) :: fs.filter (fun e => !decide (e.1 = p))

/-- Whether the first path is an ancestor of (or equal to) the second. -/
def segsLe : Segs → Segs → Bool
  | [], _ => true
  | _ :: _, [] => false
  | a :: as, b :: bs => if a = b then segsLe as bs else false

/-- The nonempty prefixes of a path, shortest first (the path itself last). -/
def ancestorsOf (p : Segs) : List Segs :=
  (List.range p.length).map (fun k => p.take (k + 1))

/-- `os.MkdirAll`: creates the directory and every missing ancestor with the
    given permission mode. -/
def mkdirAll (fs : Fs) (p : Segs) (mode : Nat) : Fs :=
  (ancestorsOf p).foldl
    (fun acc q => if (fsFind acc q).isSome then acc else fsSet acc q (.dir mode false)) fs

/-- `os.RemoveAll` / recursive deletion: removes the path and everything below it. -/
def removeSubtree (fs : Fs) (p : Segs) : Fs :=
  fs.filter (fun e => !segsLe p e.1)

/-- Marks a node read-only. -/
def FNode.setRo : FNode → FNode
  | .dir m _ => .dir m true
  | .file m c _ => .file m c true

/-- The read-only marker of a node. -/
def FNode.ro : FNode → Bool
  | .dir _ r => r
  | .file _ _ r => r

/-- Modelled from the spec: `setReadOnlyRecursive` (not under src/) recursively
    marks every file and directory under the given path read-only. -/
def markReadOnly (fs : Fs) (p : Segs) : Fs :=
  fs.map (fun e => if segsLe p e.1 then (e.1, e.2.setRo) else e)

/-- An attempted write to an existing node: fails on read-only files and on
    directories. -/
def tryWrite (fs : Fs) (p : Segs) (c : String) : Option Fs :=
  match fsFind fs p with
  | some (.file m _ r) => if r then none else some (fsSet fs p (.file m c false))
  | _ => none

/-! ## Data model of the source package -/

/-- `ImageSource`: an OCI reference (also used as the tar.gz URL by `TarGZ.Unpack`). -/
structure ImageSource where
  ref : String
deriving DecidableEq, Repr

/-- The source type tag of a `BundleSource`. -/
inductive SourceType
  | image
  | targz
deriving DecidableEq, Repr

/-- `BundleSource`: the declared origin of bundle content. -/
structure BundleSource where
  stype : SourceType
  name : String
  image : Option ImageSource
deriving DecidableEq, Repr

/-- The `State` field of a `Result`. -/
inductive UState
  | unpacked
  | errored
deriving DecidableEq, Repr

/-- `Result`: the output of an unpack. `bundleRoot` is the path handed to
    `os.DirFS` for the `Bundle` field. -/
structure Result where
  bundleRoot : String
  resolvedSource : BundleSource
  state : UState
  message : String
deriving DecidableEq, Repr

/-- `successHelmUnpackResult` of the source: builds the success `Result`. -/
def successHelmUnpackResult (bundleName unpackPath chartgz : String) : Result :=
  ⟨unpackPath, ⟨.image, bundleName, some ⟨chartgz⟩⟩, .unpacked,
    "unpacked \x22" ++ chartgz ++ "\x22 successfully"⟩

/-- The struct holding the cache root (`TarGZ{BaseCachePath}`). -/
structure TarGZ where
  BaseCachePath : String
deriving DecidableEq, Repr

/-- `bundlePath`: `filepath.Join(BaseCachePath, bundleName)`. -/
def TarGZ.bundlePath (i : TarGZ) (bundleName : String) : String :=
  goJoin i.BaseCachePath bundleName

/-- `unpackPath`: `filepath.Join(bundlePath(name), digest.String())`. -/
def TarGZ.unpackPath (i : TarGZ) (bundleName : String) (dgst : String) : String :=
  goJoin (i.bundlePath bundleName) dgst

/-! ## Tar.gz extractor (`TarGZ.Unpack`) -/

/-- A tar entry type flag: directory, regular file, or anything else
    (symlink, hardlink, device, ...). -/
inductive TypeFlag
  | dir
  | reg
  | other
deriving DecidableEq, Repr

/-- One tar entry, together with injected outcomes of the OS calls the
    source issues for it (`os.MkdirAll` on the target, `os.MkdirAll` on the
    parent, `os.OpenFile`, `io.Copy`). -/
structure TarEntryStep where
  name : String
  typeflag : TypeFlag
  mode : Nat
  content : String
  mkdirFail : Bool
  parentFail : Bool
  openFail : Bool
  copyFail : Bool
deriving DecidableEq, Repr

/-- A decoded tar stream: its entries, and whether `tarReader.Next` yields a
    framing error (instead of `io.EOF`) after them. -/
structure TarStream where
  entries : List TarEntryStep
  framingErr : Bool
deriving DecidableEq, Repr

/-- Outcome of `gzip.NewReader` on the response body. -/
inductive GzOutcome
  | badHeader
  | ok (stream : TarStream)
deriving DecidableEq, Repr

/-- An HTTP response: status code and body. -/
structure HttpResp where
  statusCode : Nat
  body : GzOutcome
deriving DecidableEq, Repr

/-- Outcome of `http.Get`. -/
inductive FetchOutcome
  | transportErr
  | ok (resp : HttpResp)
deriving DecidableEq, Repr

/-- The distinct error exits of `TarGZ.Unpack`, in source order. -/
inductive TErr
  | nilImage
  | transport
  | badStatus (code : Nat)
  | badGzip
  | mkdirTemp
  | tarNext
  | entryMkdir
  | entryParentMkdir
  | entryOpen
  | entryCopy
deriving DecidableEq, Repr

/-- Whether the error is wrapped in `reconcile.TerminalError` by the source
    (every exit except the unpack-directory `MkdirAll` failure is). -/
def TErr.isTerminal : TErr → Bool
  | .mkdirTemp => false
  | _ => true

/-- Whether the error arises during extraction of the tar stream (after the
    namespace directory was created and its deferred `RemoveAll` registered). -/
def TErr.isExtraction : TErr → Bool
  | .tarNext | .entryMkdir | .entryParentMkdir | .entryOpen | .entryCopy => true
  | _ => false

/-- Processing of a single tar entry by the extraction loop: returns an
    optional error, the updated `_hack` accumulator, and the filesystem. -/
def processEntry (unpackDir : String) (ent : TarEntryStep) (hack : String) (fs : Fs) :
    Option TErr × String × Fs :=
  let targetPath := goJoin unpackDir ent.name
  match ent.typeflag with
  | .dir =>
    if ent.mkdirFail then (some .entryMkdir, hack, fs)
    else (none, hack, mkdirAll fs (segsOf targetPath) ent.mode)
  | .reg =>
    if ent.parentFail then (some .entryParentMkdir, hack, fs)
    else
      let fs1 := mkdirAll fs (segsOf (goDir targetPath)) 0o700
      let hack1 := if hack = "" then goJoin unpackDir (goDir targetPath) else hack
      if ent.openFail then (some .entryOpen, hack1, fs1)
      else
        let fs2 := fsSet fs1 (segsOf targetPath) (.file ent.mode "" false)
        if ent.copyFail then (some .entryCopy, hack1, fs2)
        else (none, hack1, fsSet fs2 (segsOf targetPath) (.file ent.mode ent.content false))
  | .other => (none, hack, fs)

/-- Result of the extraction loop: a failed extraction or the final `_hack`
    value, in both cases with the filesystem reached. -/
inductive LoopOut
  | failed (e : TErr) (fs : Fs)
  | done (hack : String) (fs : Fs)
deriving DecidableEq, Repr

/-- The `for { tarReader.Next() ... }` extraction loop of `TarGZ.Unpack`. -/
def extractLoop (unpackDir : String) (framingErr : Bool) :
    List TarEntryStep → String → Fs → LoopOut
  | [], hack, fs => if framingErr then .failed .tarNext fs else .done hack fs
  | ent :: rest, hack, fs =>
    match processEntry unpackDir ent hack fs with
    | (some e, _, fs2) => .failed e fs2
    | (none, hack2, fs2) => extractLoop unpackDir framingErr rest hack2 fs2

/-- `TarGZ.Unpack`: nil-image check, `http.Get`, status check, gzip reader,
    namespace-directory creation with a deferred `os.RemoveAll`, extraction
    loop, and the success `Result`. The deferred `RemoveAll` runs on every
    exit after the directory is created, including the success exit. -/
def TarGZ.Unpack (i : TarGZ) (bundle : BundleSource) (fetch : FetchOutcome)
    (mkdirTempFail : Bool) (fs : Fs) : Except TErr Result × Fs :=
  match bundle.image with
  | none => (.error .nilImage, fs)
  | some img =>
    match fetch with
    | .transportErr => (.error .transport, fs)
    | .ok resp =>
      if resp.statusCode ≠ 200 then (.error (.badStatus resp.statusCode), fs)
      else
        match resp.body with
        | .badHeader => (.error .badGzip, fs)
        | .ok stream =>
          let unpackDir := goJoin i.BaseCachePath bundle.name
          if mkdirTempFail then (.error .mkdirTemp, fs)
          else
            let fs1 := mkdirAll fs (segsOf unpackDir) 0o700
            match extractLoop unpackDir stream.framingErr stream.entries "" fs1 with
            | .failed e fs2 => (.error e, removeSubtree fs2 (segsOf unpackDir))
            | .done hack fs2 =>
              (.ok (successHelmUnpackResult bundle.name hack img.ref),
                removeSubtree fs2 (segsOf unpackDir))

/-! ## OCI layer extractor (`unpackImage`) and garbage collector -/

/-- The error possibilities of `unpackImage`, with `errors.Join` as `join`. -/
inductive OciErr
  | newImage
  | newImageSource
  | mkdirUnpack
  | getBlob (k : Nat)
  | applyLayer (k : Nat)
  | readOnly
  | delFail
  | join (a b : OciErr)
deriving DecidableEq, Repr

/-- `errors.Join(e, d)`: when the cleanup error is nil the original error is
    reported alone, otherwise both are. -/
def joinErr (e : OciErr) : Option OciErr → OciErr
  | none => e
  | some d => .join e d

/-- One layer of the image, with the injected outcome of its `GetBlob` and
    `applyLayer` calls: blob fetch failure, apply failure, or the files the
    layer writes (paths relative to the generation directory). -/
inductive LayerStep
  | blobErr
  | applyErr
  | okLayer (files : List (Segs × FNode))
deriving DecidableEq, Repr

/-- Whether the layer fetches and applies successfully. -/
def LayerStep.isOk : LayerStep → Bool
  | .okLayer _ => true
  | _ => false

/-- The files an (applying) layer writes. -/
def layerFiles : LayerStep → List (Segs × FNode)
  | .okLayer fl => fl
  | _ => []

/-- The error with which a failing layer at index `k` fails, `none` for a
    successful layer. -/
def layerFailErr : LayerStep → Nat → Option OciErr
  | .blobErr, k => some (.getBlob k)
  | .applyErr, k => some (.applyLayer k)
  | .okLayer _, _ => none

/-- Modelled from the spec: `applyLayer` (not under src/) applies a fetched
    layer as filesystem writes onto the generation directory. -/
def applyLayerFs (fs : Fs) (root : Segs) (files : List (Segs × FNode)) : Fs :=
  files.foldl (fun acc f => fsSet acc (root ++ f.1) f.2) fs

/-- Modelled from the spec: `deleteRecursive` (not under src/) removes the
    path and everything below it; `oracleErr` injects an OS-level failure
    signal for the call (the state removal itself is kept total). -/
def deleteRecursive (fs : Fs) (p : Segs) (oracleErr : Option OciErr) : Fs × Option OciErr :=
  (removeSubtree fs p, oracleErr)

/-- The injected outcomes of the non-layer calls made by `unpackImage`. -/
structure OciEnv where
  newImageOk : Bool
  newImageSourceOk : Bool
  mkdirOk : Bool
  delErr : Option OciErr
  roOk : Bool
deriving DecidableEq, Repr

/-- The `for i, layerInfo := range img.LayerInfos()` loop of `unpackImage`:
    on a blob or apply failure, the generation directory is recursively
    deleted and the layer error is joined with the deletion error. -/
def layerLoop (root : Segs) (delErr : Option OciErr) :
    List LayerStep → Nat → Fs → Option OciErr × Fs
  | [], _, fs => (none, fs)
  | .blobErr :: _, k, fs =>
    let d := deleteRecursive fs root delErr
    (some (joinErr (.getBlob k) d.2), d.1)
  | .applyErr :: _, k, fs =>
    let d := deleteRecursive fs root delErr
    (some (joinErr (.applyLayer k) d.2), d.1)
  | .okLayer files :: rest, k, fs =>
    layerLoop root delErr rest (k + 1) (applyLayerFs fs root files)

/-- `unpackImage`: image and image-source construction, generation-directory
    creation, the layer loop, and on success of all layers the recursive
    read-only marking (whose failure is returned without rollback). -/
def unpackImage (env : OciEnv) (unpackPath : String) (layers : List LayerStep) (fs : Fs) :
    Option OciErr × Fs :=
  if !env.newImageOk then (some .newImage, fs)
  else if !env.newImageSourceOk then (some .newImageSource, fs)
  else if !env.mkdirOk then (some .mkdirUnpack, fs)
  else
    let root := segsOf unpackPath
    let fs1 := mkdirAll fs root 0o700
    match layerLoop root env.delErr layers 0 fs1 with
    | (some e, fs2) => (some e, fs2)
    | (none, fs2) =>
      if env.roOk then (none, markReadOnly fs2 root)
      else (some .readOnly, fs2)

/-- The error exit of `deleteOtherImages` (`os.ReadDir` failing). -/
inductive GcErr
  | readDirErr
deriving DecidableEq, Repr

/-- The names of the immediate children of a directory path in the filesystem. -/
def childNames (fs : Fs) (p : Segs) : List (List Char) :=
  (fs.map Prod.fst).filterMap
    (fun q => if q.length = p.length + 1 ∧ segsLe p q then q.getLast? else none)

/-- `deleteOtherImages`: reads the directory entries of `bundlePath(name)`
    and recursively deletes every entry whose name is not exactly
    `digestToKeep.String()`. Deletion failures are outside the model (the
    claim assumes their absence). -/
def TarGZ.deleteOtherImages (i : TarGZ) (bundleName : String) (digestToKeep : String)
    (fs : Fs) : Option GcErr × Fs :=
  let bp := segsOf (i.bundlePath bundleName)
  match fsFind fs bp with
  | some (.dir _ _) =>
    (none,
      (childNames fs bp).foldl
        (fun acc c =>
          if c = digestToKeep.data then acc else (deleteRecursive acc (bp ++ [c]) none).1)
        fs)
  | _ => (some .readDirErr, fs)

/-- A well-formed filesystem: keys are distinct and every nonempty prefix of
    a key is itself a key (real directory trees are ancestor-closed). -/
def goodFs (fs : Fs) : Prop :=
  (fs.map Prod.fst).Nodup ∧
    ∀ q ∈ fs.map Prod.fst, ∀ k, k < q.length → q.take (k + 1) ∈ fs.map Prod.fst

/-- The error of an unpack outcome, if any. -/
def resErr : Except TErr Result → Option TErr
  | .error e => some e
  | .ok _ => none

/-- Whether an error belongs to the fetch step of `TarGZ.Unpack` (transport
    failure or status-code rejection). -/
def TErr.isFetch : TErr → Bool
  | .transport | .badStatus _ => true
  | _ => false

/-- Applies the file writes of a list of successful layers in order. -/
def applyAll (root : Segs) (layers : List LayerStep) (fs : Fs) : Fs :=
  layers.foldl (fun acc l => applyLayerFs acc root (layerFiles l)) fs

/-- An identity string that is a single clean path segment: nonempty, free
    of slashes, and neither `.` nor `..`. -/
def safeSeg (s : String) : Prop :=
  s ≠ "" ∧ '/' ∉ s.data ∧ s ≠ "." ∧ s ≠ ".."

/-- Path-segment safety of a concrete string is decidable. -/
instance (s : String) : Decidable (safeSeg s) := by
  unfold safeSeg
  infer_instance

/-- Equality of unpack outcomes is decidable (used to evaluate concrete runs). -/
instance : DecidableEq (Except TErr Result) := fun x y =>
  match x, y with
  | .ok a, .ok b =>
    if h : a = b then isTrue (by rw [h]) else isFalse (fun hh => h (Except.ok.inj hh))
  | .error a, .error b =>
    if h : a = b then isTrue (by rw [h]) else isFalse (fun hh => h (Except.error.inj hh))
  | .ok _, .error _ => isFalse (fun hh => Except.noConfusion hh)
  | .error _, .ok _ => isFalse (fun hh => Except.noConfusion hh)

/-- Well-formedness of a concrete filesystem is decidable. -/
instance (fs : Fs) : Decidable (goodFs fs) := by
  unfold goodFs
  infer_instance

/-- A successful tar.gz unpack on an empty cache: archive with directory `a`
    and regular file `a/b.txt` (contents `hello`), cache root `cache`,
    bundle name `name`, HTTP status 200, no injected OS failures. -/
def unpackRunAB : Except TErr Result × Fs :=
  TarGZ.Unpack ⟨"cache"⟩ ⟨.image, "name", some ⟨"u"⟩⟩
    (.ok ⟨200, .ok ⟨[⟨"a", .dir, 493, "", false, false, false, false⟩,
      ⟨"a/b.txt", .reg, 420, "hello", false, false, false, false⟩], false⟩⟩)
    false []

/-- A tar.gz unpack of an archive whose single regular-file entry is named
    `../evil`, escaping the namespace directory `cache/name`. -/
def unpackRunTraversal : Except TErr Result × Fs :=
  TarGZ.Unpack ⟨"cache"⟩ ⟨.image, "name", some ⟨"u"⟩⟩
    (.ok ⟨200, .ok ⟨[⟨"../evil", .reg, 420, "x", false, false, false, false⟩], false⟩⟩)
    false []

/-- A tar.gz unpack of an archive with one symlink entry (`link`) and one
    regular-file entry (`f`, contents `x`). -/
def unpackRunSymlink : Except TErr Result × Fs :=
  TarGZ.Unpack ⟨"cache"⟩ ⟨.image, "name", some ⟨"u"⟩⟩
    (.ok ⟨200, .ok ⟨[⟨"link", .other, 420, "", false, false, false, false⟩,
      ⟨"f", .reg, 420, "x", false, false, false, false⟩], false⟩⟩)
    false []

/-- A tar.gz unpack whose HTTP response has status 204 (a 2xx status that is
    not 200). -/
def unpackRun204 : Except TErr Result × Fs :=
  TarGZ.Unpack ⟨"cache"⟩ ⟨.image, "name", some ⟨"u"⟩⟩ (.ok ⟨204, .badHeader⟩) false []

/-- A well-formed cache tree `root/n/a` with no subdirectory named `b`. -/
def gcFsNoKeep : Fs :=
  [([['r', 'o', 'o', 't']], .dir 448 false),
   ([['r', 'o', 'o', 't'], ['n']], .dir 448 false),
   ([['r', 'o', 'o', 't'], ['n'], ['a']], .dir 448 false)]

/-- Garbage collection on `gcFsNoKeep` keeping digest `b` (absent on disk). -/
def gcRunNoKeep : Option GcErr × Fs := TarGZ.deleteOtherImages ⟨"root"⟩ "n" "b" gcFsNoKeep

/-- A well-formed cache tree `root/n/{a,b}` in which the kept digest `b`
    exists alongside a stale generation `a`. -/
def gcFsKeep : Fs :=
  [([['r', 'o', 'o', 't']], .dir 448 false),
   ([['r', 'o', 'o', 't'], ['n']], .dir 448 false),
   ([['r', 'o', 'o', 't'], ['n'], ['a']], .dir 448 false),
   ([['r', 'o', 'o', 't'], ['n'], ['b']], .dir 448 false)]

/-- Garbage collection on `gcFsKeep` keeping digest `b`. -/
def gcRunKeep : Option GcErr × Fs := TarGZ.deleteOtherImages ⟨"root"⟩ "n" "b" gcFsKeep

end OpCtl

namespace OpCtl

/-- C1: the claim fails on the code. On a successful tar.gz unpack the
    `Result` state is `Unpacked`, but the `Bundle` filesystem root is the
    `_hack` path `filepath.Join(unpackDir, filepath.Dir(targetPath))` — here
    the doubled path `cache/name/cache/name/a`, not the namespace directory
    `cache/name` — and the deferred `os.RemoveAll(unpackDir)` has deleted
    the namespace directory (and the extracted file) before `Unpack`
    returns. -/
theorem targz_success_misroots_result_and_deletes_dir :
    unpackRunAB.1 = .ok (successHelmUnpackResult "name" "cache/name/cache/name/a" "u")
      ∧ (successHelmUnpackResult "name" "cache/name/cache/name/a" "u").state = .unpacked
      ∧ "cache/name/cache/name/a" ≠ "cache/name"
      ∧ fsFind unpackRunAB.2 (segsOf "cache/name") = none
      ∧ fsFind unpackRunAB.2 (segsOf "cache/name/a/b.txt") = none := by
  decide

/-- C6: the claim fails on the code. The extractor performs no validation of
    entry names: the entry named `../evil` yields the target path
    `cache/evil`, which lies outside the namespace directory `cache/name`;
    the unpack succeeds and the file is written (and survives) outside the
    namespace directory. -/
theorem targz_traversal_entry_escapes_namespace :
    goJoin "cache/name" "../evil" = "cache/evil"
      ∧ segsLe (segsOf "cache/name") (segsOf "cache/evil") = false
      ∧ unpackRunTraversal.1 = .ok (successHelmUnpackResult "name" "cache/name/cache" "u")
      ∧ fsFind unpackRunTraversal.2 (segsOf "cache/evil") = some (.file 420 "x" false) := by
  decide

/-- C9: the claim fails on the code. On an archive with one symlink and one
    regular file the unpack does not abort and returns no error, and the
    symlink produces no filesystem object — but the regular file is also
    absent when `Unpack` returns, because the deferred
    `os.RemoveAll(unpackDir)` deletes the whole namespace directory on the
    success exit as well. -/
theorem targz_symlink_skipped_but_file_absent :
    unpackRunSymlink.1 = .ok (successHelmUnpackResult "name" "cache/name/cache/name" "u")
      ∧ fsFind unpackRunSymlink.2 (segsOf "cache/name/link") = none
      ∧ fsFind unpackRunSymlink.2 (segsOf "cache/name/f") = none
      ∧ fsFind unpackRunSymlink.2 (segsOf "cache/name") = none := by
  decide

/-- C8 counterexample: status 204 is in the 2xx class, yet the fetch step
    fails with a terminal error (and never reaches the gzip decompressor:
    the error is `badStatus`, not the gzip-header error the body would
    produce), because the source tests `resp.StatusCode != http.StatusOK`. -/
theorem fetch_rejects_2xx_status_204 :
    unpackRun204.1 = .error (.badStatus 204)
      ∧ TErr.isTerminal (.badStatus 204) = true
      ∧ 200 ≤ 204 ∧ 204 < 300 := by
  decide

/-- C7 counterexample: the cache-layout functions are not injective — the
    distinct pairs `("a", "b/c")` and `("a/b", "c")` map to the same
    generation path, because the identity strings are joined into the path
    unvalidated and cleaned lexically. -/
theorem cache_paths_not_injective :
    TarGZ.unpackPath ⟨"root"⟩ "a" "b/c" = TarGZ.unpackPath ⟨"root"⟩ "a/b" "c"
      ∧ (("a", "b/c") : String × String) ≠ ("a/b", "c") := by
  decide

/-- C5 counterexample: on a well-formed cache tree whose bundle directory
    `root/n` has the single subdirectory `a`, garbage collection keeping
    digest `b` succeeds but leaves `root/n` with zero entries, not exactly
    one. -/
theorem gc_leaves_zero_entries_when_keep_absent :
    goodFs gcFsNoKeep
      ∧ gcRunNoKeep.1 = none
      ∧ childNames gcRunNoKeep.2 (segsOf "root/n") = []
      ∧ (childNames gcRunNoKeep.2 (segsOf "root/n")).length ≠ 1 := by
  decide

/-- Membership in a pruned filesystem, as a characterisation. -/
theorem mem_removeSubtree_iff {fs : Fs} {p q : Segs} {n : FNode} :
    (q, n) ∈ removeSubtree fs p ↔ (q, n) ∈ fs ∧ segsLe p q = false := by
  unfold removeSubtree
  simp [List.mem_filter]

/-- Nothing below the removed path remains after `removeSubtree`. -/
theorem mem_removeSubtree_not_under {fs : Fs} {p q : Segs} {n : FNode}
    (h : (q, n) ∈ removeSubtree fs p) : segsLe p q = false :=
  (mem_removeSubtree_iff.mp h).2

/-- Extraction-phase errors are exactly the terminal errors raised after the
    namespace directory exists. -/
theorem isExtraction_isTerminal {e : TErr} (h : e.isExtraction = true) :
    e.isTerminal = true := by
  cases e <;> simp_all [TErr.isExtraction, TErr.isTerminal]

/-- C2: every tar.gz unpack that fails during extraction (tar framing error,
    directory creation error, file creation error, or copy error) returns a
    terminal error, and the deferred `os.RemoveAll` has deleted the entire
    namespace directory — nothing at or below `BaseCachePath/<name>` remains
    in the final filesystem. -/
theorem targz_extraction_error_removes_namespace_dir (i : TarGZ) (bundle : BundleSource)
    (fetch : FetchOutcome) (mf : Bool) (fs : Fs) (e : TErr) (fs2 : Fs)
    (h : i.Unpack bundle fetch mf fs = (.error e, fs2))
    (he : e.isExtraction = true) :
    e.isTerminal = true
      ∧ ∀ q n, (q, n) ∈ fs2 → segsLe (segsOf (goJoin i.BaseCachePath bundle.name)) q = false := by
  refine ⟨isExtraction_isTerminal he, ?_⟩
  unfold TarGZ.Unpack at h
  split at h
  · rw [Prod.mk.injEq] at h
    injection h.1 with h1
    subst h1
    simp [TErr.isExtraction] at he
  · split at h
    · rw [Prod.mk.injEq] at h
      injection h.1 with h1
      subst h1
      simp [TErr.isExtraction] at he
    · split at h
      · rw [Prod.mk.injEq] at h
        injection h.1 with h1
        subst h1
        simp [TErr.isExtraction] at he
      · split at h
        · rw [Prod.mk.injEq] at h
          injection h.1 with h1
          subst h1
          simp [TErr.isExtraction] at he
        · split at h
          · rw [Prod.mk.injEq] at h
            injection h.1 with h1
            subst h1
            simp [TErr.isExtraction] at he
          · simp only [] at h
            split at h
            · rw [Prod.mk.injEq] at h
              obtain ⟨h1, h2⟩ := h
              subst h2
              intro q n hm
              exact mem_removeSubtree_not_under hm
            · rw [Prod.mk.injEq] at h
              exact absurd h.1 (by simp)

/-- Errors raised by the per-entry processing are extraction errors. -/
theorem processEntry_err_isExtraction {unpackDir : String} {ent : TarEntryStep}
    {hack : String} {fs : Fs} {e : TErr} {h2 : String} {fs2 : Fs}
    (h : processEntry unpackDir ent hack fs = (some e, h2, fs2)) :
    e.isExtraction = true := by
  obtain ⟨nm, tf, md, ct, mf, pf, op, cp⟩ := ent
  cases tf <;>
    simp only [processEntry] at h <;>
    (try split_ifs at h) <;>
    simp only [Prod.mk.injEq] at h <;>
    first
      | (obtain ⟨h1, -⟩ := h
         injection h1 with h1
         subst h1
         rfl)
      | simp_all

/-- Errors raised by the extraction loop are extraction errors. -/
theorem extractLoop_err_isExtraction {unpackDir : String} {fe : Bool}
    {entries : List TarEntryStep} {hack : String} {fs : Fs} {e : TErr} {fs2 : Fs}
    (h : extractLoop unpackDir fe entries hack fs = .failed e fs2) :
    e.isExtraction = true := by
  induction entries generalizing hack fs with
  | nil =>
    unfold extractLoop at h
    split at h
    · injection h with h1 _
      subst h1
      rfl
    · exact LoopOut.noConfusion h
  | cons ent rest ih =>
    unfold extractLoop at h
    split at h
    · rename_i e' hack2 fs3 heq
      injection h with h1 _
      subst h1
      exact processEntry_err_isExtraction heq
    · exact ih h

/-- Extraction errors are not fetch errors. -/
theorem isExtraction_not_isFetch {e : TErr} (h : e.isExtraction = true) :
    e.isFetch = false := by
  cases e <;> simp_all [TErr.isExtraction, TErr.isFetch]

/-- Witness for C2: the concrete framing-error run deletes `cache/name`. -/
theorem targz_extraction_error_removes_namespace_dir_witness :
    TErr.isTerminal .tarNext = true
      ∧ ∀ q n,
          (q, n) ∈ (TarGZ.Unpack ⟨"cache"⟩ ⟨.image, "name", some ⟨"u"⟩⟩
            (.ok ⟨200, .ok ⟨[], true⟩⟩) false []).2 →
          segsLe (segsOf (goJoin "cache" "name")) q = false :=
  targz_extraction_error_removes_namespace_dir ⟨"cache"⟩ ⟨.image, "name", some ⟨"u"⟩⟩
    (.ok ⟨200, .ok ⟨[], true⟩⟩) false [] .tarNext _ (by decide) (by decide)

/-- C8 (amended): with a non-nil image source, the tar.gz unpack fails with
    a fetch-step error — always a terminal one — if and only if the fetch
    was a transport error or the response status differs from 200 exactly.
    Any non-200 status is rejected, including the other 2xx statuses, and a
    200 status always proceeds past the fetch step. -/
theorem fetch_fails_iff_transport_or_not_200 (i : TarGZ) (bundle : BundleSource)
    (img : ImageSource) (himg : bundle.image = some img) (fetch : FetchOutcome)
    (mf : Bool) (fs : Fs) :
    (∃ e, resErr (i.Unpack bundle fetch mf fs).1 = some e ∧ e.isFetch = true
        ∧ e.isTerminal = true)
      ↔ fetch = .transportErr ∨ ∃ resp, fetch = .ok resp ∧ resp.statusCode ≠ 200 := by
  unfold TarGZ.Unpack
  rw [himg]
  cases fetch with
  | transportErr =>
    constructor
    · intro _
      exact Or.inl rfl
    · intro _
      exact ⟨.transport, rfl, rfl, rfl⟩
  | ok resp =>
    obtain ⟨st, body⟩ := resp
    dsimp only
    by_cases hst : st = 200
    · subst hst
      rw [if_neg (by simp)]
      constructor
      · rintro ⟨e, he, hf, -⟩
        exfalso
        cases body with
        | badHeader =>
          have he2 : some TErr.badGzip = some e := he
          injection he2 with he2
          subst he2
          simp [TErr.isFetch] at hf
        | ok stream =>
          cases mf with
          | true =>
            have he2 : some TErr.mkdirTemp = some e := he
            injection he2 with he2
            subst he2
            simp [TErr.isFetch] at hf
          | false =>
            dsimp only at he
            rcases hloop : extractLoop (goJoin i.BaseCachePath bundle.name) stream.framingErr
                stream.entries ""
                (mkdirAll fs (segsOf (goJoin i.BaseCachePath bundle.name)) 448)
              with _ | _
            · rw [hloop] at he
              have he2 : some _ = some e := he
              injection he2 with he2
              subst he2
              rw [isExtraction_not_isFetch (extractLoop_err_isExtraction hloop)] at hf
              exact Bool.false_ne_true hf
            · rw [hloop] at he
              have he2 : (none : Option TErr) = some e := he
              exact Option.noConfusion he2
      · rintro (hc | ⟨resp2, heq, hne⟩)
        · exact FetchOutcome.noConfusion hc
        · injection heq with heq
          rw [← heq] at hne
          exact absurd rfl hne
    · rw [if_pos (by simpa using hst)]
      constructor
      · intro _
        exact Or.inr ⟨⟨st, body⟩, rfl, by simpa using hst⟩
      · intro _
        exact ⟨.badStatus st, rfl, rfl, rfl⟩

/-- Witness for C8: a transport error makes the concrete run fail with a
    terminal fetch error. -/
theorem fetch_fails_iff_transport_or_not_200_witness :
    ∃ e,
      resErr ((TarGZ.Unpack ⟨"c"⟩ ⟨.image, "n", some ⟨"u"⟩⟩ .transportErr false []).1) = some e
        ∧ e.isFetch = true ∧ e.isTerminal = true :=
  (fetch_fails_iff_transport_or_not_200 ⟨"c"⟩ ⟨.image, "n", some ⟨"u"⟩⟩ ⟨"u"⟩ rfl
    .transportErr false []).mpr (Or.inl rfl)

/-- After a prefix of successful layers the layer loop continues on the rest
    with the prefix applied and the index advanced. -/
theorem layerLoop_past_ok_front {root : Segs} {delErr : Option OciErr}
    (pre : List LayerStep) (hpre : ∀ l ∈ pre, l.isOk = true)
    (rest : List LayerStep) (k : Nat) (fs : Fs) :
    layerLoop root delErr (pre ++ rest) k fs
      = layerLoop root delErr rest (k + pre.length) (applyAll root pre fs) := by
  induction pre generalizing k fs with
  | nil => simp [applyAll]
  | cons l pre ih =>
    cases l with
    | blobErr => exact absurd (hpre LayerStep.blobErr (List.mem_cons_self _ _)) (by decide)
    | applyErr => exact absurd (hpre LayerStep.applyErr (List.mem_cons_self _ _)) (by decide)
    | okLayer files =>
      rw [List.cons_append]
      show layerLoop root delErr (pre ++ rest) (k + 1) (applyLayerFs fs root files) = _
      rw [ih (fun l hl => hpre l (by simp [hl])) (k + 1) (applyLayerFs fs root files)]
      have hlen : k + 1 + pre.length = k + (LayerStep.okLayer files :: pre).length := by
        simp
        omega
      rw [hlen]
      rfl

/-- A fully successful layer loop applies every layer in order and reports
    no error. -/
theorem layerLoop_all_ok {root : Segs} {delErr : Option OciErr}
    (layers : List LayerStep) (h : ∀ l ∈ layers, l.isOk = true) (k : Nat) (fs : Fs) :
    layerLoop root delErr layers k fs = (none, applyAll root layers fs) := by
  have h2 := @layerLoop_past_ok_front root delErr layers h [] k fs
  rw [List.append_nil] at h2
  rw [h2]
  rfl

/-- A failing layer after a successful prefix: the loop deletes the
    generation directory and joins the layer error with the deletion error. -/
theorem layerLoop_fail_at {root : Segs} {delErr : Option OciErr}
    (pre : List LayerStep) (hpre : ∀ l ∈ pre, l.isOk = true)
    (bad : LayerStep) (rest : List LayerStep) (e0 : OciErr)
    (hbad : layerFailErr bad pre.length = some e0) (fs : Fs) :
    layerLoop root delErr (pre ++ bad :: rest) 0 fs
      = (some (joinErr e0 delErr), removeSubtree (applyAll root pre fs) root) := by
  rw [layerLoop_past_ok_front pre hpre (bad :: rest) 0 fs]
  cases bad with
  | blobErr =>
    injection hbad with hbad
    subst hbad
    show (some (joinErr (.getBlob (0 + pre.length)) delErr), _) = _
    rw [Nat.zero_add]
    rfl
  | applyErr =>
    injection hbad with hbad
    subst hbad
    show (some (joinErr (.applyLayer (0 + pre.length)) delErr), _) = _
    rw [Nat.zero_add]
    rfl
  | okLayer files => exact Option.noConfusion hbad

/-- C3: if fetching or applying layer `k` fails (after any number of
    successful layers, for every `k`), `unpackImage` deletes the entire
    generation directory — nothing at or under `unpackPath` remains — and
    returns `errors.Join` of the layer error with the deletion error. -/
theorem oci_layer_failure_rolls_back_and_joins (env : OciEnv) (path : String)
    (pre : List LayerStep) (bad : LayerStep) (rest : List LayerStep) (fs : Fs)
    (hpre : ∀ l ∈ pre, l.isOk = true) (e0 : OciErr)
    (hbad : layerFailErr bad pre.length = some e0)
    (h1 : env.newImageOk = true) (h2 : env.newImageSourceOk = true)
    (h3 : env.mkdirOk = true) :
    (unpackImage env path (pre ++ bad :: rest) fs).1 = some (joinErr e0 env.delErr)
      ∧ ∀ q n, (q, n) ∈ (unpackImage env path (pre ++ bad :: rest) fs).2 →
          segsLe (segsOf path) q = false := by
  unfold unpackImage
  rw [h1, h2, h3]
  dsimp only
  rw [layerLoop_fail_at pre hpre bad rest e0 hbad]
  dsimp only
  exact ⟨rfl, fun q n hm => mem_removeSubtree_not_under hm⟩

/-- Witness for C3: layer 1 (of 2) fails fetching its blob while the cleanup
    also fails; the joined error is returned and the generation directory
    `root/n/d` is gone. -/
theorem oci_layer_failure_rolls_back_and_joins_witness :
    (unpackImage ⟨true, true, true, some .delFail, true⟩ "root/n/d"
        ([.okLayer [([['f']], .file 420 "x" false)]] ++ .blobErr :: []) []).1
      = some (joinErr (.getBlob 1) (some .delFail))
      ∧ ∀ q n,
          (q, n) ∈ (unpackImage ⟨true, true, true, some .delFail, true⟩ "root/n/d"
            ([.okLayer [([['f']], .file 420 "x" false)]] ++ .blobErr :: []) []).2 →
          segsLe (segsOf "root/n/d") q = false :=
  oci_layer_failure_rolls_back_and_joins ⟨true, true, true, some .delFail, true⟩ "root/n/d"
    [.okLayer [([['f']], .file 420 "x" false)]] .blobErr [] [] (by decide)
    (.getBlob 1) (by decide) rfl rfl rfl

/-- `setRo` sets the read-only marker. -/
theorem setRo_ro (n : FNode) : n.setRo.ro = true := by
  cases n <;> rfl

/-- Every entry at or under the marked path is read-only after `markReadOnly`. -/
theorem mem_markReadOnly_ro {fs : Fs} {p q : Segs} {n : FNode}
    (h : (q, n) ∈ markReadOnly fs p) (hq : segsLe p q = true) : n.ro = true := by
  unfold markReadOnly at h
  obtain ⟨e, he, heq⟩ := List.mem_map.mp h
  obtain ⟨e1, e2⟩ := e
  by_cases hle : segsLe p e1 = true
  · rw [if_pos hle] at heq
    rw [Prod.mk.injEq] at heq
    rw [← heq.2]
    exact setRo_ro e2
  · rw [if_neg hle] at heq
    rw [Prod.mk.injEq] at heq
    rw [heq.1] at hle
    exact absurd hq hle

/-- Lookup at a path under the marked prefix after `markReadOnly`. -/
theorem fsFind_markReadOnly {p q : Segs} (hq : segsLe p q = true) (fs : Fs) :
    fsFind (markReadOnly fs p) q = (fsFind fs q).map FNode.setRo := by
  induction fs with
  | nil => rfl
  | cons e rest ih =>
    obtain ⟨e1, e2⟩ := e
    show fsFind ((if segsLe p e1 then (e1, FNode.setRo e2) else (e1, e2)) :: markReadOnly rest p) q
      = (fsFind ((e1, e2) :: rest) q).map FNode.setRo
    by_cases h1 : e1 = q
    · subst h1
      rw [if_pos hq]
      show (if e1 = e1 then some (FNode.setRo e2) else fsFind (markReadOnly rest p) e1)
        = (if e1 = e1 then some e2 else fsFind rest e1).map FNode.setRo
      rw [if_pos rfl, if_pos rfl]
      rfl
    · by_cases hle : segsLe p e1 = true
      · rw [if_pos hle]
        show (if e1 = q then some (FNode.setRo e2) else fsFind (markReadOnly rest p) q)
          = (if e1 = q then some e2 else fsFind rest q).map FNode.setRo
        rw [if_neg h1, if_neg h1]
        exact ih
      · rw [if_neg hle]
        show (if e1 = q then some e2 else fsFind (markReadOnly rest p) q)
          = (if e1 = q then some e2 else fsFind rest q).map FNode.setRo
        rw [if_neg h1, if_neg h1]
        exact ih

/-- A successful `unpackImage` ends with the recursive read-only marking. -/
theorem unpackImage_success_shape {env : OciEnv} {path : String} {layers : List LayerStep}
    {fs fs2 : Fs} (h : unpackImage env path layers fs = (none, fs2)) :
    ∃ fs1, fs2 = markReadOnly fs1 (segsOf path) := by
  unfold unpackImage at h
  split at h
  · rw [Prod.mk.injEq] at h
    exact Option.noConfusion h.1
  · split at h
    · rw [Prod.mk.injEq] at h
      exact Option.noConfusion h.1
    · split at h
      · rw [Prod.mk.injEq] at h
        exact Option.noConfusion h.1
      · dsimp only at h
        split at h
        · rw [Prod.mk.injEq] at h
          exact Option.noConfusion h.1
        · split at h
          · rw [Prod.mk.injEq] at h
            exact ⟨_, h.2.symm⟩
          · rw [Prod.mk.injEq] at h
            exact Option.noConfusion h.1

/-- C4: after a successful OCI unpack, every entry at or under the
    generation directory is marked read-only, and any attempted write to a
    path under the generation directory fails. -/
theorem oci_success_marks_tree_read_only (env : OciEnv) (path : String)
    (layers : List LayerStep) (fs fs2 : Fs)
    (h : unpackImage env path layers fs = (none, fs2)) :
    ∀ q, segsLe (segsOf path) q = true →
      (∀ n, (q, n) ∈ fs2 → n.ro = true) ∧ ∀ c, tryWrite fs2 q c = none := by
  obtain ⟨fs1, rfl⟩ := unpackImage_success_shape h
  intro q hq
  refine ⟨fun n hm => mem_markReadOnly_ro hm hq, fun c => ?_⟩
  unfold tryWrite
  rw [fsFind_markReadOnly hq]
  cases hfind : fsFind fs1 q with
  | none => rfl
  | some n =>
    cases n with
    | dir m r => rfl
    | file m ct r => rfl

/-- Witness for C4: in the concrete successful run, the layer-written file
    `root/n/d/f` is read-only and cannot be written. -/
theorem oci_success_marks_tree_read_only_witness :
    (∀ n,
        (segsOf "root/n/d/f", n) ∈ (unpackImage ⟨true, true, true, none, true⟩ "root/n/d"
          [.okLayer [([['f']], .file 420 "x" false)]] []).2 →
        n.ro = true)
      ∧ ∀ c,
          tryWrite (unpackImage ⟨true, true, true, none, true⟩ "root/n/d"
            [.okLayer [([['f']], .file 420 "x" false)]] []).2 (segsOf "root/n/d/f") c = none :=
  oci_success_marks_tree_read_only ⟨true, true, true, none, true⟩ "root/n/d"
    [.okLayer [([['f']], .file 420 "x" false)]] [] _ (by decide) (segsOf "root/n/d/f")
    (by decide)

/-- Lookup after `fsSet` on the filtered tail. -/
theorem fsFind_filter_ne (fs : Fs) (p q : Segs) (hne : q ≠ p) :
    fsFind (fs.filter fun e => !decide (e.1 = p)) q = fsFind fs q := by
  induction fs with
  | nil => rfl
  | cons e rest ih =>
    obtain ⟨e1, e2⟩ := e
    rw [List.filter_cons]
    by_cases h1 : e1 = p
    · rw [if_neg (by simp [h1])]
      rw [ih]
      show _ = if e1 = q then some e2 else fsFind rest q
      rw [if_neg (fun hh : e1 = q => hne (hh ▸ h1))]
    · rw [if_pos (by simp [h1])]
      show (if e1 = q then some e2 else fsFind (rest.filter fun e => !decide (e.1 = p)) q)
        = if e1 = q then some e2 else fsFind rest q
      by_cases h2 : e1 = q
      · rw [if_pos h2, if_pos h2]
      · rw [if_neg h2, if_neg h2]
        exact ih

/-- Lookup after `fsSet`. -/
theorem fsFind_fsSet (fs : Fs) (p : Segs) (n : FNode) (q : Segs) :
    fsFind (fsSet fs p n) q = if p = q then some n else fsFind fs q := by
  show (if p = q then some n else fsFind (fs.filter fun e => !decide (e.1 = p)) q)
    = if p = q then some n else fsFind fs q
  by_cases hp : p = q
  · rw [if_pos hp, if_pos hp]
  · rw [if_neg hp, if_neg hp]
    exact fsFind_filter_ne fs p q (fun hh => hp hh.symm)

/-- `fsSet` preserves presence of every path. -/
theorem fsFind_isSome_fsSet {fs : Fs} {q : Segs} (h : (fsFind fs q).isSome = true)
    (p : Segs) (n : FNode) : (fsFind (fsSet fs p n) q).isSome = true := by
  rw [fsFind_fsSet]
  by_cases hp : p = q
  · rw [if_pos hp]
    rfl
  · rw [if_neg hp]
    exact h

/-- Applying layer files preserves presence of every path. -/
theorem fsFind_isSome_applyLayerFs {q : Segs} (root : Segs)
    (files : List (Segs × FNode)) :
    ∀ fs : Fs, (fsFind fs q).isSome = true →
      (fsFind (applyLayerFs fs root files) q).isSome = true := by
  induction files with
  | nil => exact fun fs h => h
  | cons f rest ih => exact fun fs h => ih _ (fsFind_isSome_fsSet h _ _)

/-- Applying all layers preserves presence of every path. -/
theorem fsFind_isSome_applyAll {q root : Segs} (layers : List LayerStep) :
    ∀ fs : Fs, (fsFind fs q).isSome = true →
      (fsFind (applyAll root layers fs) q).isSome = true := by
  induction layers with
  | nil => exact fun fs h => h
  | cons l rest ih =>
    exact fun fs h => ih _ (fsFind_isSome_applyLayerFs root (layerFiles l) fs h)

/-- The `mkdirAll` fold preserves presence of every path. -/
theorem fsFind_isSome_mkdirFold {q : Segs} (m : Nat) (l : List Segs) :
    ∀ fs : Fs, (fsFind fs q).isSome = true →
      (fsFind (l.foldl (fun acc r => if (fsFind acc r).isSome then acc
        else fsSet acc r (.dir m false)) fs) q).isSome = true := by
  induction l with
  | nil => exact fun fs h => h
  | cons r rest ih =>
    intro fs h
    refine ih _ ?_
    dsimp only
    by_cases hc : (fsFind fs r).isSome = true
    · rw [if_pos hc]
      exact h
    · rw [if_neg hc]
      exact fsFind_isSome_fsSet h _ _

/-- After `mkdirAll fs p m` the path `p` itself is present (for `p ≠ []`). -/
theorem fsFind_isSome_mkdirAll (fs : Fs) {p : Segs} (hp : p ≠ []) (m : Nat) :
    (fsFind (mkdirAll fs p m) p).isSome = true := by
  obtain ⟨k, hk⟩ : ∃ k, p.length = k + 1 := by
    cases p with
    | nil => exact absurd rfl hp
    | cons a t => exact ⟨t.length, by simp⟩
  unfold mkdirAll ancestorsOf
  rw [hk, List.range_succ, List.map_append, List.foldl_append]
  have htake : p.take (k + 1) = p := by
    rw [← hk]
    exact List.take_length p
  simp only [List.map_cons, List.map_nil, List.foldl_cons, List.foldl_nil, htake]
  by_cases hc :
      (fsFind (List.foldl (fun acc r => if (fsFind acc r).isSome then acc
        else fsSet acc r (.dir m false)) fs ((List.range k).map (fun j => p.take (j + 1)))) p).isSome
        = true
  · rw [if_pos hc]
    exact hc
  · rw [if_neg hc]
    rw [fsFind_fsSet]
    rw [if_pos rfl]
    rfl

/-- C10: when every layer fetches and applies successfully but the recursive
    read-only marking fails, `unpackImage` returns the read-only error while
    leaving the fully written generation directory on disk — the final
    filesystem is exactly the one built by `mkdirAll` plus all layer writes,
    with no deletion, and the generation directory is still present. -/
theorem oci_readonly_failure_leaves_generation (env : OciEnv) (path : String)
    (layers : List LayerStep) (fs : Fs)
    (hl : ∀ l ∈ layers, l.isOk = true)
    (h1 : env.newImageOk = true) (h2 : env.newImageSourceOk = true)
    (h3 : env.mkdirOk = true) (hro : env.roOk = false) :
    unpackImage env path layers fs
      = (some .readOnly, applyAll (segsOf path) layers (mkdirAll fs (segsOf path) 0o700))
      ∧ (segsOf path ≠ [] →
          (fsFind (unpackImage env path layers fs).2 (segsOf path)).isSome = true) := by
  have hmain : unpackImage env path layers fs
      = (some .readOnly, applyAll (segsOf path) layers (mkdirAll fs (segsOf path) 0o700)) := by
    unfold unpackImage
    rw [h1, h2, h3]
    dsimp only
    rw [layerLoop_all_ok layers hl 0 (mkdirAll fs (segsOf path) 0o700)]
    dsimp only
    rw [hro]
    rfl
  refine ⟨hmain, fun hne => ?_⟩
  rw [hmain]
  exact fsFind_isSome_applyAll layers _ (fsFind_isSome_mkdirAll fs hne 448)

/-- Witness for C10: the concrete run with one successful layer and a failing
    read-only step returns the read-only error and keeps `root/n/d` on disk. -/
theorem oci_readonly_failure_leaves_generation_witness :
    unpackImage ⟨true, true, true, none, false⟩ "root/n/d"
        [.okLayer [([['f']], .file 420 "x" false)]] []
      = (some .readOnly,
          applyAll (segsOf "root/n/d") [.okLayer [([['f']], .file 420 "x" false)]]
            (mkdirAll [] (segsOf "root/n/d") 0o700))
      ∧ (segsOf "root/n/d" ≠ [] →
          (fsFind (unpackImage ⟨true, true, true, none, false⟩ "root/n/d"
              [.okLayer [([['f']], .file 420 "x" false)]] []).2
            (segsOf "root/n/d")).isSome = true) :=
  oci_readonly_failure_leaves_generation ⟨true, true, true, none, false⟩ "root/n/d"
    [.okLayer [([['f']], .file 420 "x" false)]] [] (by decide) rfl rfl rfl rfl

/-- `consHead` never returns the empty list. -/
theorem consHead_ne_nil (c : Char) (l : List (List Char)) : consHead c l ≠ [] := by
  cases l <;> simp [consHead]

/-- `splitOnSlash` never returns the empty list. -/
theorem splitOnSlash_ne_nil (l : List Char) : splitOnSlash l ≠ [] := by
  induction l with
  | nil => simp [splitOnSlash]
  | cons c rest ih =>
    unfold splitOnSlash
    split
    · simp
    · exact consHead_ne_nil c _

/-- The unfolding equation of `splitOnSlash` on a cons cell. -/
theorem splitOnSlash_cons (c : Char) (rest : List Char) :
    splitOnSlash (c :: rest)
      = if c = '/' then [] :: splitOnSlash rest else consHead c (splitOnSlash rest) := rfl

/-- Groups produced by `splitOnSlash` contain no slash. -/
theorem mem_splitOnSlash_noSlash :
    ∀ {l seg : List Char}, seg ∈ splitOnSlash l → '/' ∉ seg := by
  intro l
  induction l with
  | nil =>
    intro seg h
    simp [splitOnSlash] at h
    simp [h]
  | cons c rest ih =>
    intro seg h
    rw [splitOnSlash_cons] at h
    by_cases hc : c = '/'
    · rw [if_pos hc] at h
      rcases List.mem_cons.mp h with h1 | h1
      · simp [h1]
      · exact ih h1
    · rw [if_neg hc] at h
      cases hsp : splitOnSlash rest with
      | nil => exact absurd hsp (splitOnSlash_ne_nil rest)
      | cons s ss =>
        rw [hsp] at h
        unfold consHead at h
        rcases List.mem_cons.mp h with h1 | h1
        · subst h1
          intro hmem
          rcases List.mem_cons.mp hmem with h2 | h2
          · exact hc h2.symm
          · exact ih (by rw [hsp]; exact List.mem_cons_self s ss) h2
        · exact ih (by rw [hsp]; exact List.mem_cons.mpr (Or.inr h1))

/-- A slash-free character list splits into a single group. -/
theorem splitOnSlash_noSlash {l : List Char} (h : '/' ∉ l) : splitOnSlash l = [l] := by
  induction l with
  | nil => rfl
  | cons c rest ih =>
    have hc : ¬c = '/' := fun hh => h (hh ▸ List.mem_cons_self c rest)
    have hr : '/' ∉ rest := fun hh => h (List.mem_cons.mpr (Or.inr hh))
    rw [splitOnSlash_cons, if_neg hc, ih hr]
    rfl

/-- Splitting a slash-free group, a slash, and a remainder. -/
theorem splitOnSlash_append {s : List Char} (h : '/' ∉ s) (t : List Char) :
    splitOnSlash (s ++ '/' :: t) = s :: splitOnSlash t := by
  induction s with
  | nil =>
    show splitOnSlash ('/' :: t) = [] :: splitOnSlash t
    rw [splitOnSlash_cons, if_pos rfl]
  | cons c s ih =>
    have hc : ¬c = '/' := fun hh => h (hh ▸ List.mem_cons_self c s)
    have hs : '/' ∉ s := fun hh => h (List.mem_cons.mpr (Or.inr hh))
    show splitOnSlash (c :: (s ++ '/' :: t)) = (c :: s) :: splitOnSlash t
    rw [splitOnSlash_cons, if_neg hc, ih hs]
    rfl

/-- `joinSlash` on a list of two or more groups. -/
theorem joinSlash_cons_cons (s t : List Char) (rest : List (List Char)) :
    joinSlash (s :: t :: rest) = s ++ '/' :: joinSlash (t :: rest) := rfl

/-- `splitOnSlash` is a left inverse of `joinSlash` on nonempty lists of
    slash-free groups. -/
theorem splitOnSlash_joinSlash :
    ∀ {L : List (List Char)}, L ≠ [] → (∀ s ∈ L, '/' ∉ s) →
      splitOnSlash (joinSlash L) = L := by
  intro L
  induction L with
  | nil => intro h _; exact absurd rfl h
  | cons s L ih =>
    intro _ hL
    cases L with
    | nil => exact splitOnSlash_noSlash (hL s (List.mem_cons_self s []))
    | cons t rest =>
      rw [joinSlash_cons_cons]
      rw [splitOnSlash_append (hL s (List.mem_cons_self s _)) (joinSlash (t :: rest))]
      rw [ih (by simp) (fun x hx => hL x (List.mem_cons.mpr (Or.inr hx)))]

/-- Rendering an absolute path. -/
theorem renderPath_true (L : Segs) : renderPath true L = ⟨'/' :: joinSlash L⟩ := rfl

/-- Rendering a nonempty relative path. -/
theorem renderPath_false_cons (s : List Char) (rest : Segs) :
    renderPath false (s :: rest) = ⟨joinSlash (s :: rest)⟩ := by
  unfold renderPath
  rw [if_neg (by simp), if_neg (by simp)]

/-- `splitPath` on a literal character list. -/
theorem splitPath_mk (l : List Char) :
    splitPath ⟨l⟩ = (splitOnSlash l).filter keepSeg := rfl

/-- Nonempty non-dot segments survive the split filter. -/
theorem keepSeg_true {seg : List Char} (h1 : seg ≠ []) (h2 : seg ≠ dotSeg) :
    keepSeg seg = true := by
  simp [keepSeg, h1, h2]

/-- `splitPath` is a left inverse of `renderPath` on lists of nonempty,
    slash-free, non-dot segments. -/
theorem splitPath_renderPath {L : Segs}
    (hL : ∀ s ∈ L, s ≠ [] ∧ '/' ∉ s ∧ s ≠ dotSeg) (abs : Bool) :
    splitPath (renderPath abs L) = L := by
  have hfilter : L.filter keepSeg = L :=
    List.filter_eq_self.mpr (fun x hx => keepSeg_true (hL x hx).1 (hL x hx).2.2)
  cases abs with
  | true =>
    rw [renderPath_true, splitPath_mk, splitOnSlash_cons, if_pos rfl]
    cases L with
    | nil => rfl
    | cons s rest =>
      rw [splitOnSlash_joinSlash (by simp) (fun x hx => (hL x hx).2.1)]
      rw [List.filter_cons, if_neg (by decide)]
      exact hfilter
  | false =>
    cases L with
    | nil => rfl
    | cons s rest =>
      rw [renderPath_false_cons, splitPath_mk]
      rw [splitOnSlash_joinSlash (by simp) (fun x hx => (hL x hx).2.1)]
      exact hfilter

/-- A path without slashes is not absolute. -/
theorem isAbs_of_noSlash {s : String} (h : '/' ∉ s.data) : isAbs s = false := by
  unfold isAbs
  cases hd : s.data with
  | nil => rfl
  | cons c l =>
    have hc : c ≠ '/' := by
      intro hh
      apply h
      rw [hd, hh]
      exact List.mem_cons_self _ _
    simp [hc]

/-- `isAbs` recovers the absoluteness flag from a rendered path. -/
theorem isAbs_renderPath {L : Segs} (hL : ∀ s ∈ L, s ≠ [] ∧ '/' ∉ s) (abs : Bool) :
    isAbs (renderPath abs L) = abs := by
  cases abs with
  | true =>
    rw [renderPath_true]
    rfl
  | false =>
    cases L with
    | nil => rfl
    | cons s rest =>
      rw [renderPath_false_cons]
      obtain ⟨c, s2, rfl⟩ : ∃ c s2, s = c :: s2 := by
        cases s with
        | nil => exact absurd rfl (hL [] (List.mem_cons_self _ _)).1
        | cons c s2 => exact ⟨c, s2, rfl⟩
      have hc : c ≠ '/' := by
        intro hh
        apply (hL (c :: s2) (List.mem_cons_self _ _)).2
        rw [hh]
        exact List.mem_cons_self _ _
      cases rest with
      | nil =>
        show isAbs ⟨c :: s2⟩ = false
        simp [isAbs, hc]
      | cons t rest2 =>
        rw [joinSlash_cons_cons]
        show isAbs ⟨c :: (s2 ++ '/' :: joinSlash (t :: rest2))⟩ = false
        simp [isAbs, hc]

/-- A rendered path over nonempty segments is never the empty string. -/
theorem renderPath_ne_empty {L : Segs} (hL : ∀ s ∈ L, s ≠ []) (abs : Bool) :
    renderPath abs L ≠ "" := by
  cases abs with
  | true =>
    rw [renderPath_true]
    intro hcontra
    exact List.noConfusion (congrArg String.data hcontra)
  | false =>
    cases L with
    | nil =>
      intro hcontra
      exact List.noConfusion (congrArg String.data hcontra)
    | cons s rest =>
      rw [renderPath_false_cons]
      intro hcontra
      have hdata : joinSlash (s :: rest) = [] := congrArg String.data hcontra
      obtain ⟨c, s2, rfl⟩ : ∃ c s2, s = c :: s2 := by
        cases s with
        | nil => exact absurd rfl (hL [] (List.mem_cons_self _ _))
        | cons c s2 => exact ⟨c, s2, rfl⟩
      cases rest with
      | nil => exact List.noConfusion hdata
      | cons t rest2 =>
        rw [joinSlash_cons_cons] at hdata
        exact List.noConfusion hdata

/-- One cleaning step on a non-parent segment pushes it. -/
theorem cleanStack_ne {abs : Bool} {stk : Segs} {a : List Char}
    (h : a ≠ dotdotSeg) : cleanStack abs stk a = a :: stk := by
  unfold cleanStack
  rw [if_neg h]

/-- One cleaning step on `..` over an empty absolute stack drops it. -/
theorem cleanStack_dd_nil_true : cleanStack true [] dotdotSeg = [] := by decide

/-- One cleaning step on `..` over an empty relative stack keeps it. -/
theorem cleanStack_dd_nil_false : cleanStack false [] dotdotSeg = [dotdotSeg] := by decide

/-- One cleaning step on `..` over a stack headed by `..` pushes it. -/
theorem cleanStack_dd_dd {abs : Bool} (rest : Segs) :
    cleanStack abs (dotdotSeg :: rest) dotdotSeg = dotdotSeg :: dotdotSeg :: rest := by
  unfold cleanStack
  rw [if_pos rfl]
  show (if dotdotSeg = dotdotSeg then dotdotSeg :: dotdotSeg :: rest else rest)
    = dotdotSeg :: dotdotSeg :: rest
  rw [if_pos rfl]

/-- One cleaning step on `..` over a stack headed by a real segment pops it. -/
theorem cleanStack_dd_ne {abs : Bool} {top : List Char} (h : top ≠ dotdotSeg)
    (rest : Segs) : cleanStack abs (top :: rest) dotdotSeg = rest := by
  unfold cleanStack
  rw [if_pos rfl]
  show (if top = dotdotSeg then dotdotSeg :: top :: rest else rest) = rest
  rw [if_neg h]

/-- Membership in one cleaning step. -/
theorem mem_cleanStack {abs : Bool} {stk : Segs} {a s : List Char}
    (h : s ∈ cleanStack abs stk a) : s ∈ stk ∨ s = a ∨ s = dotdotSeg := by
  by_cases ha : a = dotdotSeg
  · subst ha
    cases stk with
    | nil =>
      cases abs with
      | true =>
        rw [cleanStack_dd_nil_true] at h
        exact absurd h (List.not_mem_nil s)
      | false =>
        rw [cleanStack_dd_nil_false] at h
        exact Or.inr (Or.inr (List.mem_singleton.mp h))
    | cons top rest =>
      by_cases ht : top = dotdotSeg
      · subst ht
        rw [cleanStack_dd_dd] at h
        rcases List.mem_cons.mp h with h1 | h1
        · exact Or.inr (Or.inr h1)
        · exact Or.inl h1
      · rw [cleanStack_dd_ne ht] at h
        exact Or.inl (List.mem_cons.mpr (Or.inr h))
  · rw [cleanStack_ne ha] at h
    rcases List.mem_cons.mp h with h1 | h1
    · exact Or.inr (Or.inl h1)
    · exact Or.inl h1

/-- Cleaning introduces no segments beyond the input and `..`. -/
theorem mem_cleanSegments {abs : Bool} {L : Segs} {s : List Char}
    (h : s ∈ cleanSegments abs L) : s ∈ L ∨ s = dotdotSeg := by
  unfold cleanSegments at h
  rw [List.mem_reverse] at h
  have main : ∀ (M : Segs) (stk : Segs), s ∈ M.foldl (cleanStack abs) stk →
      s ∈ stk ∨ s ∈ M ∨ s = dotdotSeg := by
    intro M
    induction M with
    | nil => exact fun stk hs => Or.inl hs
    | cons a M ih =>
      intro stk hs
      rcases ih (cleanStack abs stk a) hs with h1 | h1 | h1
      · rcases mem_cleanStack h1 with h2 | h2 | h2
        · exact Or.inl h2
        · refine Or.inr (Or.inl ?_)
          rw [h2]
          exact List.mem_cons_self _ _
        · exact Or.inr (Or.inr h2)
      · exact Or.inr (Or.inl (List.mem_cons.mpr (Or.inr h1)))
      · exact Or.inr (Or.inr h1)
  rcases main L [] h with h1 | h1 | h1
  · exact absurd h1 (List.not_mem_nil s)
  · exact Or.inl h1
  · exact Or.inr h1

/-- Cleaning past a trailing segment other than `..`. -/
theorem cleanSegments_append_single {abs : Bool} {seg : List Char}
    (h : seg ≠ dotdotSeg) (L : Segs) :
    cleanSegments abs (L ++ [seg]) = cleanSegments abs L ++ [seg] := by
  unfold cleanSegments
  rw [List.foldl_append]
  show (cleanStack abs (L.foldl (cleanStack abs) []) seg).reverse = _
  rw [cleanStack_ne h]
  rw [List.reverse_cons]

/-- A single-segment-safe string splits into its own character list. -/
theorem splitPath_single {s : String} (h1 : s ≠ "") (h2 : '/' ∉ s.data)
    (h3 : s ≠ ".") : splitPath s = [s.data] := by
  unfold splitPath
  rw [splitOnSlash_noSlash h2]
  have hd1 : s.data ≠ [] := fun hh => h1 (String.ext hh)
  have hd3 : s.data ≠ dotSeg := fun hh => h3 (String.ext hh)
  rw [List.filter_cons, if_pos (keepSeg_true hd1 hd3), List.filter_nil]

/-- The character-list facts carried by a path-safe string. -/
theorem safeSeg_data_props {s : String} (h : safeSeg s) :
    s.data ≠ [] ∧ '/' ∉ s.data ∧ s.data ≠ dotSeg ∧ s.data ≠ dotdotSeg := by
  obtain ⟨h1, h2, h3, h4⟩ := h
  exact ⟨fun hh => h1 (String.ext hh), h2,
    fun hh => h3 (String.ext hh), fun hh => h4 (String.ext hh)⟩

/-- Segments produced by `splitPath` are nonempty, slash-free and non-dot. -/
theorem mem_splitPath_good {x : String} {s : List Char} (h : s ∈ splitPath x) :
    s ≠ [] ∧ '/' ∉ s ∧ s ≠ dotSeg := by
  unfold splitPath at h
  have h2 := List.of_mem_filter h
  have h3 := List.mem_of_mem_filter h
  have h4 := mem_splitOnSlash_noSlash h3
  simp [keepSeg] at h2
  exact ⟨h2.1, h4, h2.2⟩

/-- Segments of a cleaned split path are nonempty, slash-free and non-dot. -/
theorem mem_cleanSegments_splitPath_good {x : String} {abs : Bool} {s : List Char}
    (h : s ∈ cleanSegments abs (splitPath x)) :
    s ≠ [] ∧ '/' ∉ s ∧ s ≠ dotSeg := by
  rcases mem_cleanSegments h with h1 | h1
  · exact mem_splitPath_good h1
  · subst h1
    exact ⟨by simp [dotdotSeg], by simp [dotdotSeg], by simp [dotdotSeg, dotSeg]⟩

/-- Joining a path-safe single segment appends it to the cleaned base. -/
theorem goJoin_safe_single (a : String) {b : String} (hb : safeSeg b) :
    goJoin a b
      = renderPath (isAbs a) (cleanSegments (isAbs a) (splitPath a) ++ [b.data]) := by
  obtain ⟨hb1, hb2, hb3, hb4⟩ := hb
  obtain ⟨hd1, hd2, hd3, hd4⟩ := safeSeg_data_props ⟨hb1, hb2, hb3, hb4⟩
  unfold goJoin
  by_cases ha : a = ""
  · rw [if_pos ha, if_neg hb1]
    unfold goClean segsOf
    rw [isAbs_of_noSlash hd2]
    rw [splitPath_single hb1 hd2 hb3]
    have hclean : cleanSegments false [b.data] = [b.data] := by
      unfold cleanSegments
      show (cleanStack false [] b.data).reverse = [b.data]
      rw [cleanStack_ne hd4]
      rfl
    rw [hclean, ha]
    rfl
  · rw [if_neg ha]
    rw [splitPath_single hb1 hd2 hb3]
    rw [cleanSegments_append_single hd4]

/-- The generation path of a pair of path-safe identity strings, in cleaned
    segment form. -/
theorem unpackPath_safe_form (base : String) {n d : String}
    (hn : safeSeg n) (hd : safeSeg d) :
    TarGZ.unpackPath ⟨base⟩ n d
      = renderPath (isAbs base)
          (cleanSegments (isAbs base) (cleanSegments (isAbs base) (splitPath base))
            ++ [n.data] ++ [d.data]) := by
  obtain ⟨hn1, hn2, hn3, hn4⟩ := safeSeg_data_props hn
  obtain ⟨hd1, hd2, hd3, hd4⟩ := safeSeg_data_props hd
  show goJoin (goJoin base n) d = _
  rw [goJoin_safe_single base hn]
  have hgood : ∀ s ∈ cleanSegments (isAbs base) (splitPath base) ++ [n.data],
      s ≠ [] ∧ '/' ∉ s ∧ s ≠ dotSeg := by
    intro s hs
    rcases List.mem_append.mp hs with h1 | h1
    · exact mem_cleanSegments_splitPath_good h1
    · rw [List.mem_singleton.mp h1]
      exact ⟨hn1, hn2, hn3⟩
  rw [goJoin_safe_single _ hd]
  rw [isAbs_renderPath (fun s hs => ⟨(hgood s hs).1, (hgood s hs).2.1⟩) _]
  rw [splitPath_renderPath hgood _]
  rw [cleanSegments_append_single hn4]

/-- C7 (amended): `bundlePath` and `unpackPath` are pure functions, and
    `unpackPath` is injective on identity strings that are single clean
    path segments (nonempty, slash-free, neither `.` nor `..`). The source
    performs no validation of identity strings, so outside this class
    distinct pairs can collide (see the counterexample). -/
theorem cache_paths_injective_on_safe_segments (i : TarGZ) (n1 d1 n2 d2 : String)
    (hn1 : safeSeg n1) (hd1 : safeSeg d1) (hn2 : safeSeg n2) (hd2 : safeSeg d2)
    (h : i.unpackPath n1 d1 = i.unpackPath n2 d2) : n1 = n2 ∧ d1 = d2 := by
  obtain ⟨base⟩ := i
  rw [unpackPath_safe_form base hn1 hd1, unpackPath_safe_form base hn2 hd2] at h
  have hZ : ∀ s ∈ cleanSegments (isAbs base) (cleanSegments (isAbs base) (splitPath base)),
      s ≠ [] ∧ '/' ∉ s ∧ s ≠ dotSeg := by
    intro s hs
    rcases mem_cleanSegments hs with h1 | h1
    · exact mem_cleanSegments_splitPath_good h1
    · subst h1
      exact ⟨by simp [dotdotSeg], by simp [dotdotSeg], by simp [dotdotSeg, dotSeg]⟩
  have hgood : ∀ (n d : String), safeSeg n → safeSeg d →
      ∀ s ∈ cleanSegments (isAbs base) (cleanSegments (isAbs base) (splitPath base))
          ++ [n.data] ++ [d.data],
        s ≠ [] ∧ '/' ∉ s ∧ s ≠ dotSeg := by
    intro n d hn hd s hs
    obtain ⟨a1, a2, a3, a4⟩ := safeSeg_data_props hn
    obtain ⟨b1, b2, b3, b4⟩ := safeSeg_data_props hd
    rcases List.mem_append.mp hs with h1 | h1
    · rcases List.mem_append.mp h1 with h2 | h2
      · exact hZ s h2
      · rw [List.mem_singleton.mp h2]
        exact ⟨a1, a2, a3⟩
    · rw [List.mem_singleton.mp h1]
      exact ⟨b1, b2, b3⟩
  have h2 := congrArg splitPath h
  rw [splitPath_renderPath (hgood n1 d1 hn1 hd1) _,
    splitPath_renderPath (hgood n2 d2 hn2 hd2) _] at h2
  rw [List.append_assoc, List.append_assoc] at h2
  have h3 := List.append_cancel_left h2
  injection h3 with e1 h4
  injection h4 with e2 h5
  exact ⟨String.ext e1, String.ext e2⟩

/-- Witness for C7 (amended): the injectivity theorem applied at the safe
    pair `("a", "b")` against itself. -/
theorem cache_paths_injective_on_safe_segments_witness :
    safeSeg "a" ∧ safeSeg "b" ∧ (("a" : String) = "a" ∧ ("b" : String) = "b") :=
  ⟨by decide, by decide,
    cache_paths_injective_on_safe_segments ⟨"root"⟩ "a" "b" "a" "b"
      (by decide) (by decide) (by decide) (by decide) rfl⟩

/-- `segsLe` is the prefix relation on segment lists. -/
theorem segsLe_iff_append {p q : Segs} : segsLe p q = true ↔ ∃ r, q = p ++ r := by
  induction p generalizing q with
  | nil =>
    constructor
    · intro _
      exact ⟨q, rfl⟩
    · intro _
      rfl
  | cons a p ih =>
    cases q with
    | nil =>
      constructor
      · intro hfalse
        exact absurd hfalse (by simp [segsLe])
      · rintro ⟨r, hr⟩
        exact List.noConfusion hr
    | cons b q2 =>
      show (if a = b then segsLe p q2 else false) = true ↔ _
      by_cases hab : a = b
      · subst hab
        rw [if_pos rfl, ih]
        constructor
        · rintro ⟨r, rfl⟩
          exact ⟨r, rfl⟩
        · rintro ⟨r, hr⟩
          injection hr with h1 h2
          exact ⟨r, h2⟩
      · rw [if_neg hab]
        constructor
        · intro hfalse
          exact absurd hfalse (by simp)
        · rintro ⟨r, hr⟩
          injection hr with h1 h2
          exact absurd h1.symm hab

/-- A path is an ancestor of its own extensions. -/
theorem segsLe_append_self (p r : Segs) : segsLe p (p ++ r) = true :=
  segsLe_iff_append.mpr ⟨r, rfl⟩

/-- `segsLe` is reflexive. -/
theorem segsLe_refl (p : Segs) : segsLe p p = true :=
  segsLe_iff_append.mpr ⟨[], (List.append_nil p).symm⟩

/-- A path lies under at most one child of a directory. -/
theorem segsLe_child_unique {bp : Segs} {c c2 : List Char} {q : Segs}
    (h1 : segsLe (bp ++ [c]) q = true) (h2 : segsLe (bp ++ [c2]) q = true) : c = c2 := by
  obtain ⟨r1, hr1⟩ := segsLe_iff_append.mp h1
  obtain ⟨r2, hr2⟩ := segsLe_iff_append.mp h2
  rw [hr1] at hr2
  rw [List.append_assoc, List.append_assoc] at hr2
  have h3 := List.append_cancel_left hr2
  injection h3 with h4 h5

/-- A key one level below a directory is the directory plus its last name. -/
theorem key_child_shape {bp q : Segs} {c : List Char}
    (hlen : q.length = bp.length + 1) (hle : segsLe bp q = true)
    (hlast : q.getLast? = some c) : q = bp ++ [c] := by
  obtain ⟨r, rfl⟩ := segsLe_iff_append.mp hle
  obtain ⟨x, rfl⟩ : ∃ x, r = [x] := by
    rw [List.length_append] at hlen
    cases r with
    | nil => simp at hlen
    | cons x t =>
      cases t with
      | nil => exact ⟨x, rfl⟩
      | cons y t2 => simp at hlen
  rw [List.getLast?_concat] at hlast
  injection hlast with h1
  rw [h1]

/-- Membership in the directory listing. -/
theorem mem_childNames {fs : Fs} {bp : Segs} {c : List Char} :
    c ∈ childNames fs bp ↔ (bp ++ [c]) ∈ fs.map Prod.fst := by
  unfold childNames
  rw [List.mem_filterMap]
  constructor
  · rintro ⟨q, hq, hc⟩
    by_cases hcond : q.length = bp.length + 1 ∧ segsLe bp q
    · rw [if_pos hcond] at hc
      rw [← key_child_shape hcond.1 hcond.2 hc]
      exact hq
    · rw [if_neg hcond] at hc
      exact Option.noConfusion hc
  · intro hmem
    refine ⟨bp ++ [c], hmem, ?_⟩
    rw [if_pos ⟨by simp, segsLe_append_self bp [c]⟩]
    exact List.getLast?_concat bp

/-- The directory listing of a duplicate-free filesystem has no duplicates. -/
theorem childNames_nodup {fs : Fs} {bp : Segs} (h : (fs.map Prod.fst).Nodup) :
    (childNames fs bp).Nodup := by
  unfold childNames
  refine List.Nodup.filterMap ?_ h
  intro q q2 c hc hc2
  by_cases h1 : q.length = bp.length + 1 ∧ segsLe bp q
  · rw [if_pos h1] at hc
    by_cases h2 : q2.length = bp.length + 1 ∧ segsLe bp q2
    · rw [if_pos h2] at hc2
      rw [key_child_shape h1.1 h1.2 (Option.mem_def.mp hc),
        key_child_shape h2.1 h2.2 (Option.mem_def.mp hc2)]
    · rw [if_neg h2] at hc2
      exact absurd hc2 (by simp)
  · rw [if_neg h1] at hc
    exact absurd hc (by simp)

/-- Membership after the garbage-collection fold: an entry survives exactly
    when it lies under no doomed child. -/
theorem mem_gcFold {bp : Segs} {keepD : List Char} :
    ∀ (children : List (List Char)) (fs : Fs) (q : Segs) (n : FNode),
      ((q, n) ∈ children.foldl
          (fun acc c => if c = keepD then acc
            else (deleteRecursive acc (bp ++ [c]) none).1) fs)
        ↔ ((q, n) ∈ fs ∧ ∀ c ∈ children, c ≠ keepD → segsLe (bp ++ [c]) q = false) := by
  intro children
  induction children with
  | nil =>
    intro fs q n
    simp
  | cons c children ih =>
    intro fs q n
    simp only [List.foldl_cons]
    by_cases hc : c = keepD
    · rw [if_pos hc, ih]
      constructor
      · rintro ⟨h1, h2⟩
        refine ⟨h1, ?_⟩
        intro c2 hc2 hne
        rcases List.mem_cons.mp hc2 with h3 | h3
        · subst h3
          exact absurd hc hne
        · exact h2 c2 h3 hne
      · rintro ⟨h1, h2⟩
        exact ⟨h1, fun c2 h3 hne => h2 c2 (List.mem_cons.mpr (Or.inr h3)) hne⟩
    · rw [if_neg hc, ih]
      show (q, n) ∈ removeSubtree fs (bp ++ [c]) ∧ _ ↔ _
      rw [mem_removeSubtree_iff]
      constructor
      · rintro ⟨⟨h1, h4⟩, h2⟩
        refine ⟨h1, ?_⟩
        intro c2 hc2 hne
        rcases List.mem_cons.mp hc2 with h3 | h3
        · subst h3
          exact h4
        · exact h2 c2 h3 hne
      · rintro ⟨h1, h2⟩
        exact ⟨⟨h1, h2 c (List.mem_cons_self _ _) hc⟩,
          fun c2 h3 hne => h2 c2 (List.mem_cons.mpr (Or.inr h3)) hne⟩

/-- The garbage-collection fold only removes entries. -/
theorem gcFold_sublist {bp : Segs} {keepD : List Char} :
    ∀ (children : List (List Char)) (fs : Fs),
      (children.foldl
        (fun acc c => if c = keepD then acc
          else (deleteRecursive acc (bp ++ [c]) none).1) fs).Sublist fs := by
  intro children
  induction children with
  | nil => exact fun fs => List.Sublist.refl fs
  | cons c children ih =>
    intro fs
    simp only [List.foldl_cons]
    by_cases hc : c = keepD
    · rw [if_pos hc]
      exact ih fs
    · rw [if_neg hc]
      exact (ih _).trans (List.filter_sublist fs)

/-- A duplicate-free list whose members all equal `a`, containing `a`. -/
theorem nodup_all_eq_singleton {l : List (List Char)} {a : List Char}
    (hnd : l.Nodup) (hall : ∀ x ∈ l, x = a) (hmem : a ∈ l) : l = [a] := by
  cases l with
  | nil => exact absurd hmem (List.not_mem_nil a)
  | cons x t =>
    have hx : x = a := hall x (List.mem_cons_self _ _)
    subst hx
    have ht : t = [] := by
      cases t with
      | nil => rfl
      | cons y t2 =>
        have hy : y = x := hall y (List.mem_cons.mpr (Or.inr (List.mem_cons_self _ _)))
        rw [List.nodup_cons] at hnd
        refine absurd ?_ hnd.1
        rw [← hy]
        exact List.mem_cons_self _ _
    rw [ht]

/-- A successful `deleteOtherImages` produces exactly the deletion fold over
    the directory listing. -/
theorem deleteOtherImages_success {i : TarGZ} {name keep : String} {fs fs2 : Fs}
    (h : i.deleteOtherImages name keep fs = (none, fs2)) :
    fs2 = (childNames fs (segsOf (i.bundlePath name))).foldl
      (fun acc c => if c = keep.data then acc
        else (deleteRecursive acc (segsOf (i.bundlePath name) ++ [c]) none).1) fs := by
  unfold TarGZ.deleteOtherImages at h
  dsimp only at h
  split at h
  · rw [Prod.mk.injEq] at h
    exact h.2.symm
  · rw [Prod.mk.injEq] at h
    exact Option.noConfusion h.1

/-- C5 (amended): on a well-formed filesystem, a successful
    `deleteOtherImages` never deletes anything at or under the directory
    named `digestToKeep`, recursively deletes every subtree of
    `bundlePath(name)` named otherwise, and afterwards the bundle directory
    lists exactly the kept entry when it existed beforehand — and no entry
    at all otherwise (zero entries, not one: the correction). -/
theorem gc_keeps_digest_and_deletes_others (i : TarGZ) (name keep : String)
    (fs : Fs) (hgood : goodFs fs) (fs2 : Fs)
    (h : i.deleteOtherImages name keep fs = (none, fs2)) :
    (∀ q n, (q, n) ∈ fs →
        segsLe (segsOf (i.bundlePath name) ++ [keep.data]) q = true → (q, n) ∈ fs2)
      ∧ (∀ q n, (q, n) ∈ fs2 → ∀ c, c ≠ keep.data →
          segsLe (segsOf (i.bundlePath name) ++ [c]) q = false)
      ∧ (keep.data ∈ childNames fs (segsOf (i.bundlePath name)) →
          childNames fs2 (segsOf (i.bundlePath name)) = [keep.data])
      ∧ (keep.data ∉ childNames fs (segsOf (i.bundlePath name)) →
          childNames fs2 (segsOf (i.bundlePath name)) = []) := by
  have hshape := deleteOtherImages_success h
  subst hshape
  generalize hbp : segsOf (i.bundlePath name) = bp
  have hA : ∀ q n, (q, n) ∈ fs → segsLe (bp ++ [keep.data]) q = true →
      (q, n) ∈ (childNames fs bp).foldl
        (fun acc c => if c = keep.data then acc
          else (deleteRecursive acc (bp ++ [c]) none).1) fs := by
    intro q n hmem hle
    rw [mem_gcFold]
    refine ⟨hmem, ?_⟩
    intro c hc hne
    cases hbool : segsLe (bp ++ [c]) q with
    | false => rfl
    | true => exact absurd (segsLe_child_unique hbool hle) hne
  have hB : ∀ q n,
      (q, n) ∈ (childNames fs bp).foldl
        (fun acc c => if c = keep.data then acc
          else (deleteRecursive acc (bp ++ [c]) none).1) fs →
      ∀ c, c ≠ keep.data → segsLe (bp ++ [c]) q = false := by
    intro q n hmem c hne
    rw [mem_gcFold] at hmem
    obtain ⟨hfs, hforall⟩ := hmem
    cases hbool : segsLe (bp ++ [c]) q with
    | false => rfl
    | true =>
      obtain ⟨r, hr⟩ := segsLe_iff_append.mp hbool
      have hkey : q ∈ fs.map Prod.fst := List.mem_map_of_mem Prod.fst hfs
      have hlt : bp.length < q.length := by
        rw [hr, List.length_append, List.length_append, List.length_singleton]
        omega
      have hanc := hgood.2 q hkey bp.length hlt
      have htake : q.take (bp.length + 1) = bp ++ [c] := by
        rw [hr]
        have hlen2 : bp.length + 1 = (bp ++ [c]).length := by simp
        rw [hlen2, List.take_left]
      rw [htake] at hanc
      have hfalse := hforall c (mem_childNames.mpr hanc) hne
      rw [hfalse] at hbool
      exact Bool.noConfusion hbool
  have hsub : ((childNames fs bp).foldl
      (fun acc c => if c = keep.data then acc
        else (deleteRecursive acc (bp ++ [c]) none).1) fs).Sublist fs :=
    gcFold_sublist (childNames fs bp) fs
  have hall : ∀ x ∈ childNames ((childNames fs bp).foldl
      (fun acc c => if c = keep.data then acc
        else (deleteRecursive acc (bp ++ [c]) none).1) fs) bp, x = keep.data := by
    intro x hx
    by_cases hxe : x = keep.data
    · exact hxe
    · exfalso
      obtain ⟨⟨q, n⟩, hqn, hfst⟩ := List.mem_map.mp (mem_childNames.mp hx)
      have hq : q = bp ++ [x] := hfst
      have hfalse := hB q n hqn x hxe
      rw [hq] at hfalse
      rw [segsLe_refl (bp ++ [x])] at hfalse
      exact Bool.noConfusion hfalse
  refine ⟨hA, hB, ?_, ?_⟩
  · intro hkeep
    refine nodup_all_eq_singleton
      (childNames_nodup (hgood.1.sublist (List.Sublist.map Prod.fst hsub))) hall ?_
    obtain ⟨⟨q, n⟩, hqn, hfst⟩ := List.mem_map.mp (mem_childNames.mp hkeep)
    have hq : q = bp ++ [keep.data] := hfst
    subst hq
    refine mem_childNames.mpr ?_
    exact List.mem_map_of_mem Prod.fst (hA _ n hqn (segsLe_refl _))
  · intro hnokeep
    rw [List.eq_nil_iff_forall_not_mem]
    intro x hx
    have hxe := hall x hx
    subst hxe
    refine hnokeep (mem_childNames.mpr ?_)
    exact (List.Sublist.map Prod.fst hsub).subset (mem_childNames.mp hx)

/-- Witness for C5 (amended): on `gcFsKeep`, keeping digest `b`, the run
    preserves `root/n/b`, removes `root/n/a`, and lists exactly `b`. -/
theorem gc_keeps_digest_and_deletes_others_witness :
    (∀ q n, (q, n) ∈ gcFsKeep →
        segsLe (segsOf (TarGZ.bundlePath ⟨"root"⟩ "n") ++ [("b" : String).data]) q = true →
        (q, n) ∈ gcRunKeep.2)
      ∧ (∀ q n, (q, n) ∈ gcRunKeep.2 → ∀ c, c ≠ ("b" : String).data →
          segsLe (segsOf (TarGZ.bundlePath ⟨"root"⟩ "n") ++ [c]) q = false)
      ∧ (("b" : String).data ∈ childNames gcFsKeep (segsOf (TarGZ.bundlePath ⟨"root"⟩ "n")) →
          childNames gcRunKeep.2 (segsOf (TarGZ.bundlePath ⟨"root"⟩ "n")) = [("b" : String).data])
      ∧ (("b" : String).data ∉ childNames gcFsKeep (segsOf (TarGZ.bundlePath ⟨"root"⟩ "n")) →
          childNames gcRunKeep.2 (segsOf (TarGZ.bundlePath ⟨"root"⟩ "n")) = []) :=
  gc_keeps_digest_and_deletes_others ⟨"root"⟩ "n" "b" gcFsKeep (by decide) gcRunKeep.2
    (by decide)

end OpCtl